import Mathlib

/-!
Verification development for the `git-dependencies` repository.

The repository's only source file is `setup.py`, a packaging script.  Its
pure logic (the `find_version` regular-expression search and the `setup`
invocation) is embedded directly.  The tool itself (manifest loader, git
fetch orchestrator, tree integrator) is not present in the source tree and
is modelled from the specification, as marked on each such definition.
-/

namespace GitDeps

/-! ## Generic association-list store (used for file systems, caches, trees) -/

/-- Look up a key in an association list, first binding wins. -/
def getKey {α : Type} : List (String × α) → String → Option α
  | [], _ => none
  | (k, v) :: rest, q => if k = q then some v else getKey rest q

/-- Set a key in an association list, replacing an existing binding in place. -/
def setKey {α : Type} : List (String × α) → String → α → List (String × α)
  | [], q, v => [(q, v)]
  | (k, w) :: rest, q, v =>
    if k = q then (q, v) :: rest else (k, w) :: setKey rest q v

/-- Apply a list of keyed writes in order. -/
def applyWrites {α : Type} : List (String × α) → List (String × α) → List (String × α)
  | t, [] => t
  | t, (k, v) :: ws => applyWrites (setKey t k v) ws

/-- The last write to a key in a list of writes, if any. -/
def lastWrite {α : Type} : List (String × α) → String → Option α
  | [], _ => none
  | (k, v) :: ws, q =>
    match lastWrite ws q with
    | some v2 => some v2
    | none => if k = q then some v else none

/-! ## Embedding of `setup.py`

`setup.py` defines `read` (read a file next to `setup.py` as UTF-8 text),
`find_version` (search the file content for the first line matching the
Python regex `^__version__ = ['\"]([^'\"]*)['\"]` with `re.M`, returning
the captured group, else raise `RuntimeError`), and a single `setup(...)`
call.  Text content is modelled as `List Char`. -/

/-- The newline character, at which `re.M` makes `^` match. -/
def newlineChar : Char := Char.ofNat 10

/-- The single-quote character. -/
def singleQuoteChar : Char := Char.ofNat 39

/-- The double-quote character. -/
def doubleQuoteChar : Char := Char.ofNat 34

/-- Whether a character is in the regex class of quote characters. -/
def isQuote (c : Char) : Bool := c == singleQuoteChar || c == doubleQuoteChar

/-- The literal part of the version regex, before the opening quote. -/
def versionMarkerStr : String := "__version__ = "

/-- The literal regex prefix as a character list. -/
def versionMarker : List Char := versionMarkerStr.toList

/-- Strip an expected literal prefix from a character list, or fail. -/
def dropPrefixChars : List Char → List Char → Option (List Char)
  | [], s => some s
  | _ :: _, [] => none
  | p :: ps, c :: cs => if c = p then dropPrefixChars ps cs else none

/-- Try to match `__version__ = ['\"]([^'\"]*)['\"]` at the head of `s`,
returning the captured group.  As in Python, the class `[^'\"]` also
matches newline characters, and the greedy star stops exactly at the first
quote character, which the final `['\"]` must then consume. -/
def matchVersionAt (s : List Char) : Option (List Char) :=
  match dropPrefixChars versionMarker s with
  | none => none
  | some rest =>
    match rest with
    | [] => none
    | q :: rest2 =>
      if isQuote q then
        match rest2.dropWhile (fun c => !(isQuote c)) with
        | [] => none
        | _ :: _ => some (rest2.takeWhile (fun c => !(isQuote c)))
      else none

/-- Scan of `re.search` with a `^`-anchored multiline pattern: attempt the
match at every line-start position, left to right.  The flag records
whether the current position is a line start (start of string, or just
after a newline). -/
def searchFrom : Bool → List Char → Option (List Char)
  | _, [] => none
  | atLS, c :: cs =>
    if atLS then
      match matchVersionAt (c :: cs) with
      | some g => some g
      | none => searchFrom (c == newlineChar) cs
    else searchFrom (c == newlineChar) cs

/-- The error message raised by `find_version` when the pattern is absent. -/
def noVersionMsg : String := "Unable to find version string."

/-- `find_version` from `setup.py`: search the content for the version
regex; return the first captured group, else raise `RuntimeError`. -/
def find_version (content : List Char) : Except String (List Char) :=
  match searchFrom true content with
  | some g => Except.ok g
  | none => Except.error noVersionMsg

/-- A file system fragment: file name (relative to the directory of
`setup.py`) to decoded UTF-8 text content. -/
def FS : Type := List (String × String)

/-- The file name of the entry-point script read for its version. -/
def scriptName : String := "git-dependencies"

/-- `read` from `setup.py`: open the named file next to `setup.py` with
UTF-8 decoding and return its full content; fails if the file is absent. -/
def read (fs : FS) (part : String) : Option String := getKey fs part

/-- The keyword arguments of the `setup(...)` call in `setup.py`. -/
structure SetupArgs where
  name : String
  version : String
  description : String
  author : String
  author_email : String
  scripts : List String
  install_requires : List String
  url : String
  license : String
deriving DecidableEq, Repr

/-- Running the body of `setup.py`: read the `git-dependencies` script,
extract its version string, and call `setup` with the literal metadata. -/
def runSetupScript (fs : FS) : Except String SetupArgs :=
  match read fs scriptName with
  | none => Except.error "No such file or directory"
  | some content =>
    match find_version content.toList with
    | Except.error e => Except.error e
    | Except.ok v =>
      Except.ok
        { name := "git-dependencies"
          version := v.asString
          description := "Fetch external dependencies from their git repositories and integrate them in the working tree."
          author := "Nico Mandery"
          author_email := "nico.mandery@dlr.de"
          scripts := ["git-dependencies"]
          install_requires := ["PyYAML>=3.0", "pexpect>=3.1"]
          url := "http://git.ukis.eoc.dlr.de/projects/ADMIN/repos/git-dependencies"
          license := "Apache License 2.0" }

/-! ## Model of the `git-dependencies` tool itself

The implementation of the tool lives in the `git-dependencies` script,
which is declared as an installable entry point by `setup.py` but is not
part of the provided source.  The definitions below are therefore modelled
from the specification's component contracts (Manifest Loader, Git Fetch
Orchestrator, Tree Integrator), as marked on each definition. -/

/-- Modelled from the spec: one declared dependency of the manifest, with
its unique `name`, `repository_url`, pinned `revision` and `target_path`
(the implementing script is not in the provided source). -/
structure DependencySpec where
  name : String
  repository_url : String
  revision : String
  target_path : String
deriving DecidableEq, Repr

/-- Modelled from the spec: the manifest configuration source as the tool
finds it — missing, malformed, or parsed into an ordered entry list. -/
inductive ManifestFile where
  | missing
  | malformed
  | parsed (entries : List DependencySpec)
deriving DecidableEq, Repr

/-- Modelled from the spec: the per-dependency error taxonomy
(`GitOperationError`, `CacheCorruptionError`, `IntegrationConflictError`). -/
inductive DepError where
  | gitOperationError
  | cacheCorruptionError
  | integrationConflictError
deriving DecidableEq, Repr

/-- Modelled from the spec: a run-level failure — a fatal `ManifestError`,
or the failure of a named dependency carrying the underlying cause. -/
inductive RunError where
  | manifestError
  | depFailed (name : String) (e : DepError)
deriving DecidableEq, Repr

/-- Modelled from the spec: the per-dependency state machine
`Pending → Fetching → Fetched → Integrating → Integrated` with a terminal
`Failed` state carrying the originating error kind. -/
inductive DepState where
  | pending
  | fetched
  | integrated
  | failed (e : DepError)
deriving DecidableEq, Repr

/-- Modelled from the spec: a remote git repository — whether it is
reachable over the network, and the content available at each revision. -/
structure Remote where
  reachable : Bool
  revisions : List (String × String)
deriving DecidableEq, Repr

/-- Modelled from the spec: the state of one dependency's cache directory:
absent, left incomplete by an interrupted clone/fetch, corrupted (not a
valid repository), or a valid clone checked out at some content. -/
inductive CacheState where
  | absent
  | incomplete
  | corrupted
  | valid (url : String) (checkout : String)
deriving DecidableEq, Repr

/-- Modelled from the spec: the world a run acts on — remotes keyed by
repository URL, the per-`name` dependency cache, and the consuming
project's working tree keyed by target path. -/
structure World where
  remotes : List (String × Remote)
  cache : List (String × CacheState)
  tree : List (String × String)
deriving DecidableEq, Repr

/-- Modelled from the spec: a `DependencySpec` paired with the local cache
location of its fetched content and the actual content resolved. -/
structure ResolvedDependency where
  spec : DependencySpec
  local_dir : String
  commit : String
deriving DecidableEq, Repr

/-- Modelled from the spec: the cache directory keyed by dependency name. -/
def cacheDir (name : String) : String := String.append "cache/" name

/-- Modelled from the spec: the Manifest Loader.  Parses the configuration
source into an ordered sequence of `DependencySpec`; fails with
`ManifestError` when the file is missing, malformed, or contains a
duplicate `name`, an empty `repository_url`, or an empty `revision`. -/
def loadManifest : ManifestFile → Except RunError (List DependencySpec)
  | ManifestFile.missing => Except.error RunError.manifestError
  | ManifestFile.malformed => Except.error RunError.manifestError
  | ManifestFile.parsed entries =>
    if (entries.map (fun e => e.name)).Nodup ∧
        ∀ e ∈ entries, e.repository_url ≠ "" ∧ e.revision ≠ "" then
      Except.ok entries
    else Except.error RunError.manifestError

/-- Modelled from the spec: the network/checkout core shared by `clone`
and `fetch + checkout` (at this abstraction level the two coincide: both
contact the remote and leave the cache checked out at the pinned
revision).  Fails with `GitOperationError` when the remote is unreachable
or the revision does not exist after fetch; on success the cache entry for
the dependency becomes a valid clone at the resolved content. -/
def gitResolve (w : World) (d : DependencySpec) : Except DepError (World × String) :=
  match getKey w.remotes d.repository_url with
  | none => Except.error DepError.gitOperationError
  | some rem =>
    if rem.reachable then
      match getKey rem.revisions d.revision with
      | none => Except.error DepError.gitOperationError
      | some content =>
        Except.ok
          ({ w with cache := setKey w.cache d.name (CacheState.valid d.repository_url content) },
            content)
    else Except.error DepError.gitOperationError

/-- Modelled from the spec: the pure success condition of `gitResolve` —
the content resolved for a dependency, depending only on the remotes. -/
def resolveOk (rem : List (String × Remote)) (d : DependencySpec) : Option String :=
  match getKey rem d.repository_url with
  | none => none
  | some r => if r.reachable then getKey r.revisions d.revision else none

/-- Modelled from the spec: the Git Fetch Orchestrator for one dependency.
A valid clone is fetched and checked out; an absent or incomplete cache is
(re-)cloned — an interrupted clone is never treated as valid; a corrupted
cache is re-cloned rather than failed, and `CacheCorruptionError` is
surfaced only if that re-clone also fails. -/
def resolveOne (w : World) (d : DependencySpec) : Except DepError (World × ResolvedDependency) :=
  match getKey w.cache d.name with
  | some CacheState.corrupted =>
    match gitResolve w d with
    | Except.error _ => Except.error DepError.cacheCorruptionError
    | Except.ok (w1, c) => Except.ok (w1, ⟨d, cacheDir d.name, c⟩)
  | _ =>
    match gitResolve w d with
    | Except.error e => Except.error e
    | Except.ok (w1, c) => Except.ok (w1, ⟨d, cacheDir d.name, c⟩)

/-- Modelled from the spec: the resolve phase — resolve each dependency in
order, aborting on the first failure (abort-on-first policy).  Returns the
final world, the resolved dependencies, the per-dependency states, and the
first error if any. -/
def resolvePhase (w : World) :
    List DependencySpec →
      World × List ResolvedDependency × List (String × DepState) × Option RunError
  | [] => (w, [], [], none)
  | d :: ds =>
    match resolveOne w d with
    | Except.error e =>
      (w, [], (d.name, DepState.failed e) :: ds.map (fun x => (x.name, DepState.pending)),
        some (RunError.depFailed d.name e))
    | Except.ok (w1, r) =>
      let res := resolvePhase w1 ds
      (res.1, r :: res.2.1, (d.name, DepState.fetched) :: res.2.2.1, res.2.2.2)

/-- Modelled from the spec: the Tree Integrator for one resolved
dependency.  Pre-existing content at `target_path` fails with
`IntegrationConflictError` unless overwrite mode is requested, in which
case prior content at that path is removed before materialization. -/
def integrateOne (overwrite : Bool) (w : World) (r : ResolvedDependency) :
    Except DepError World :=
  match getKey w.tree r.spec.target_path with
  | some _ =>
    if overwrite then
      Except.ok { w with tree := setKey w.tree r.spec.target_path r.commit }
    else Except.error DepError.integrationConflictError
  | none => Except.ok { w with tree := setKey w.tree r.spec.target_path r.commit }

/-- Modelled from the spec: the integrate phase — materialize each
resolved dependency in order, aborting on the first conflict. -/
def integratePhase (overwrite : Bool) (w : World) :
    List ResolvedDependency → World × List (String × DepState) × Option RunError
  | [] => (w, [], none)
  | r :: rs =>
    match integrateOne overwrite w r with
    | Except.error e =>
      (w, (r.spec.name, DepState.failed e) :: rs.map (fun x => (x.spec.name, DepState.fetched)),
        some (RunError.depFailed r.spec.name e))
    | Except.ok w1 =>
      let res := integratePhase overwrite w1 rs
      (res.1, (r.spec.name, DepState.integrated) :: res.2.1, res.2.2)

/-- Modelled from the spec: the observable outcome of one invocation — the
final world, the state reached by each declared dependency, and the first
error if any. -/
structure RunOutcome where
  world : World
  states : List (String × DepState)
  err : Option RunError
deriving DecidableEq, Repr

/-- Modelled from the spec: one synchronous invocation of the tool — load
the manifest (aborting before any fetch on `ManifestError`), resolve every
dependency, then integrate every resolved dependency. -/
def runTool (overwrite : Bool) (w : World) (mf : ManifestFile) : RunOutcome :=
  match loadManifest mf with
  | Except.error _ => ⟨w, [], some RunError.manifestError⟩
  | Except.ok deps =>
    let res := resolvePhase w deps
    match res.2.2.2 with
    | some e => ⟨res.1, res.2.2.1, some e⟩
    | none =>
      let ir := integratePhase overwrite res.1 res.2.1
      ⟨ir.1, ir.2.1, ir.2.2⟩

/-- Modelled from the spec: the process exit code — `0` on full success,
non-zero on any failure. -/
def exitCode (out : RunOutcome) : Nat :=
  match out.err with
  | none => 0
  | some _ => 1

/-- Modelled from the spec: a user interrupt during the fetch phase.  The
first `k` dependencies were fully resolved; the clone/fetch of the next
dependency was cut short, leaving its cache directory incomplete; the
working tree is untouched. -/
def interruptResolve (w : World) : Nat → List DependencySpec → World
  | _, [] => w
  | 0, d :: _ => { w with cache := setKey w.cache d.name CacheState.incomplete }
  | Nat.succ k, d :: ds =>
    match resolveOne w d with
    | Except.error _ => w
    | Except.ok (w1, _) => interruptResolve w1 k ds

/-- Modelled from the spec: the pure resolution of a dependency list
against the remotes alone — `none` as soon as one dependency cannot be
resolved, otherwise the list of `ResolvedDependency` in manifest order. -/
def resolveAllPure (rem : List (String × Remote)) :
    List DependencySpec → Option (List ResolvedDependency)
  | [] => some []
  | d :: ds =>
    match resolveOk rem d with
    | none => none
    | some c =>
      match resolveAllPure rem ds with
      | none => none
      | some rs => some (⟨d, cacheDir d.name, c⟩ :: rs)

/-- The cache writes performed by resolving a list of dependencies. -/
def cacheWritesOf (rs : List ResolvedDependency) : List (String × CacheState) :=
  rs.map (fun r => (r.spec.name, CacheState.valid r.spec.repository_url r.commit))

/-- The working-tree writes performed by integrating a list of resolved
dependencies. -/
def treeWritesOf (rs : List ResolvedDependency) : List (String × String) :=
  rs.map (fun r => (r.spec.target_path, r.commit))

/-- The suffix of a text beginning at a line start: the whole text, or any
suffix whose preceding character is a newline.  These are exactly the
positions at which `re.M` lets `^` match. -/
def IsLineStartSuffix (s suf : List Char) : Prop :=
  ∃ pre, s = pre ++ suf ∧ (pre = [] ∨ ∃ pre2, pre = pre2 ++ [newlineChar])

/-- The positions visited by `searchFrom b s`: the whole of `s` when `b`
is set, and every suffix that follows a newline. -/
inductive MatchPosI : Bool → List Char → List Char → Prop
  | here (s : List Char) : MatchPosI true s s
  | there (b : Bool) (c : Char) (cs suf : List Char) :
      MatchPosI (c == newlineChar) cs suf → MatchPosI b (c :: cs) suf

/-- The predicate of claim C1: a manifest source the loader must reject. -/
def BadManifest (mf : ManifestFile) : Prop :=
  mf = ManifestFile.missing ∨ mf = ManifestFile.malformed ∨
    ∃ entries, mf = ManifestFile.parsed entries ∧
      (¬ (entries.map (fun e => e.name)).Nodup ∨
        ∃ e ∈ entries, e.repository_url = "" ∨ e.revision = "")

/-! ## Concrete example data (used to exercise the theorems) -/

/-- An example remote with two revisions. -/
def exRemote : Remote := ⟨true, [("v1.2.0", "contentA"), ("v2.0.0", "contentB")]⟩

/-- An example remote URL. -/
def exUrl : String := "https://example/libfoo.git"

/-- An example dependency pinned at `v1.2.0`. -/
def exDep1 : DependencySpec := ⟨"libfoo", exUrl, "v1.2.0", "vendor/libfoo"⟩

/-- A second example dependency pinned at `v2.0.0`. -/
def exDep2 : DependencySpec := ⟨"libbar", exUrl, "v2.0.0", "vendor/libbar"⟩

/-- An example world: one reachable remote, empty cache, empty tree. -/
def exWorld : World := ⟨[(exUrl, exRemote)], [], []⟩

/-- An example valid manifest with two dependencies. -/
def exManifest : ManifestFile := ManifestFile.parsed [exDep1, exDep2]

/-- An example manifest with a duplicate `name`. -/
def exManifestDup : ManifestFile := ManifestFile.parsed [exDep1, exDep1]

/-- An example world whose cache for `libfoo` is corrupted but whose
remote is reachable. -/
def exWorldCorrupt : World :=
  ⟨[(exUrl, exRemote)], [("libfoo", CacheState.corrupted)], []⟩

/-- An example world whose cache for `libfoo` is corrupted and whose
remote is unreachable, so the automatic re-clone fails. -/
def exWorldCorruptBad : World :=
  ⟨[(exUrl, ⟨false, [("v1.2.0", "contentA")]⟩)], [("libfoo", CacheState.corrupted)], []⟩

/-- An example world whose tree already holds content at
`vendor/libfoo`. -/
def exWorldOccupied : World :=
  ⟨[(exUrl, exRemote)], [], [("vendor/libfoo", "stale")]⟩

/-- An example resolved dependency for `exDep1`. -/
def exResolved1 : ResolvedDependency := ⟨exDep1, cacheDir "libfoo", "contentA"⟩

/-- A one-character string holding the double-quote character. -/
def quoteStr : String := List.asString [doubleQuoteChar]

/-- An example script content declaring `__version__ = "0.3"`. -/
def exScript : String :=
  String.append "#!x\n" (String.append versionMarkerStr
    (String.append quoteStr (String.append "0.3" (String.append quoteStr "\n"))))

/-- An example file system holding the `git-dependencies` script. -/
def exFS : FS := [(scriptName, exScript)]

/-- The `setup` arguments produced from `exFS`. -/
def exArgs : SetupArgs :=
  { name := "git-dependencies"
    version := "0.3"
    description := "Fetch external dependencies from their git repositories and integrate them in the working tree."
    author := "Nico Mandery"
    author_email := "nico.mandery@dlr.de"
    scripts := ["git-dependencies"]
    install_requires := ["PyYAML>=3.0", "pexpect>=3.1"]
    url := "http://git.ukis.eoc.dlr.de/projects/ADMIN/repos/git-dependencies"
    license := "Apache License 2.0" }

/-! ## Association-list lemmas -/

theorem getKey_setKey {α : Type} (l : List (String × α)) (k q : String) (v : α) :
    getKey (setKey l k v) q = if k = q then some v else getKey l q := by
  induction l with
  | nil => simp [setKey, getKey]
  | cons p rest ih =>
    obtain ⟨a, b⟩ := p
    by_cases hak : a = k
    · subst hak
      by_cases hq : a = q <;> simp [setKey, getKey, hq]
    · by_cases hq : a = q
      · subst hq
        simp [setKey, getKey, hak, Ne.symm hak]
      · simp [setKey, getKey, hak, hq, ih]

theorem setKey_setKey {α : Type} (l : List (String × α)) (k : String) (a b : α) :
    setKey (setKey l k a) k b = setKey l k b := by
  induction l with
  | nil => simp [setKey]
  | cons p rest ih =>
    obtain ⟨x, y⟩ := p
    by_cases hxk : x = k <;> simp [setKey, hxk, ih]

theorem getKey_applyWrites {α : Type} (ws : List (String × α)) (t : List (String × α))
    (q : String) :
    getKey (applyWrites t ws) q =
      match lastWrite ws q with
      | some v => some v
      | none => getKey t q := by
  induction ws generalizing t with
  | nil => simp [applyWrites, lastWrite]
  | cons p ws ih =>
    obtain ⟨k, v⟩ := p
    rw [show applyWrites t ((k, v) :: ws) = applyWrites (setKey t k v) ws from rfl, ih]
    cases h : lastWrite ws q with
    | some v2 => simp [lastWrite, h]
    | none =>
      simp only [lastWrite, h, getKey_setKey]
      by_cases hk : k = q <;> simp [hk]

theorem lastWrite_none_keys {α : Type} (ws : List (String × α)) (q : String)
    (h : lastWrite ws q = none) : ∀ p ∈ ws, p.1 ≠ q := by
  induction ws with
  | nil => simp
  | cons p ws ih =>
    obtain ⟨k, v⟩ := p
    intro x hx
    simp only [lastWrite] at h
    cases hlw : lastWrite ws q with
    | some v2 => rw [hlw] at h; exact absurd h (by simp)
    | none =>
      rw [hlw] at h
      rcases List.mem_cons.mp hx with hx2 | hx2
      · subst hx2
        intro hkq
        rw [if_pos hkq] at h
        exact absurd h (by simp)
      · exact ih hlw x hx2

theorem getKey_applyWrites_idem {α : Type} (ws : List (String × α))
    (t : List (String × α)) (q : String) :
    getKey (applyWrites (applyWrites t ws) ws) q = getKey (applyWrites t ws) q := by
  rw [getKey_applyWrites, getKey_applyWrites]
  cases h : lastWrite ws q with
  | some v => simp
  | none => simp [getKey_applyWrites, h]

/-! ## Orchestrator lemmas -/

theorem gitResolve_eq (w : World) (d : DependencySpec) :
    gitResolve w d =
      match resolveOk w.remotes d with
      | some c =>
        Except.ok
          ({ w with cache := setKey w.cache d.name (CacheState.valid d.repository_url c) }, c)
      | none => Except.error DepError.gitOperationError := by
  unfold gitResolve resolveOk
  cases getKey w.remotes d.repository_url with
  | none => rfl
  | some rem =>
    cases hr : rem.reachable with
    | false => simp [hr]
    | true =>
      cases hv : getKey rem.revisions d.revision with
      | none => simp [hr, hv]
      | some c => simp [hr, hv]

theorem resolveOne_ok (w : World) (d : DependencySpec) (c : String)
    (h : resolveOk w.remotes d = some c) :
    resolveOne w d =
      Except.ok
        ({ w with cache := setKey w.cache d.name (CacheState.valid d.repository_url c) },
          ⟨d, cacheDir d.name, c⟩) := by
  unfold resolveOne
  rw [gitResolve_eq, h]
  cases hc : getKey w.cache d.name with
  | none => rfl
  | some st => cases st <;> rfl

theorem resolveOne_err (w : World) (d : DependencySpec)
    (h : resolveOk w.remotes d = none) : ∃ e, resolveOne w d = Except.error e := by
  unfold resolveOne
  rw [gitResolve_eq, h]
  cases hc : getKey w.cache d.name with
  | none => exact ⟨DepError.gitOperationError, rfl⟩
  | some st =>
    cases st with
    | corrupted => exact ⟨DepError.cacheCorruptionError, rfl⟩
    | absent => exact ⟨DepError.gitOperationError, rfl⟩
    | incomplete => exact ⟨DepError.gitOperationError, rfl⟩
    | valid u co => exact ⟨DepError.gitOperationError, rfl⟩

theorem resolveOne_err_notCorrupted (w : World) (d : DependencySpec)
    (hc : getKey w.cache d.name ≠ some CacheState.corrupted)
    (h : resolveOk w.remotes d = none) :
    resolveOne w d = Except.error DepError.gitOperationError := by
  unfold resolveOne
  rw [gitResolve_eq, h]
  cases hk : getKey w.cache d.name with
  | none => rfl
  | some st =>
    cases st with
    | corrupted => exact absurd hk hc
    | absent => rfl
    | incomplete => rfl
    | valid u co => rfl

theorem resolveOne_corrupted_err (w : World) (d : DependencySpec)
    (hc : getKey w.cache d.name = some CacheState.corrupted)
    (h : resolveOk w.remotes d = none) :
    resolveOne w d = Except.error DepError.cacheCorruptionError := by
  unfold resolveOne
  rw [gitResolve_eq, h, hc]

theorem resolveOne_corruption_iff (w : World) (d : DependencySpec) :
    resolveOne w d = Except.error DepError.cacheCorruptionError ↔
      getKey w.cache d.name = some CacheState.corrupted ∧
        resolveOk w.remotes d = none := by
  constructor
  · intro h
    cases hr : resolveOk w.remotes d with
    | some c => rw [resolveOne_ok w d c hr] at h; exact absurd h (by simp)
    | none =>
      refine ⟨?_, rfl⟩
      by_contra hc
      rw [resolveOne_err_notCorrupted w d hc hr] at h
      exact absurd (Except.error.inj h) (by simp)
  · intro ⟨hc, hr⟩
    exact resolveOne_corrupted_err w d hc hr

theorem resolveOne_shape (w : World) (d : DependencySpec) (w1 : World)
    (r : ResolvedDependency) (h : resolveOne w d = Except.ok (w1, r)) :
    r = ⟨d, cacheDir d.name, r.commit⟩ ∧
      w1 = { w with
        cache := setKey w.cache d.name (CacheState.valid d.repository_url r.commit) } := by
  cases hr : resolveOk w.remotes d with
  | some c =>
    rw [resolveOne_ok w d c hr] at h
    obtain ⟨h1, h2⟩ := Prod.mk.injEq .. ▸ Except.ok.inj h
    subst h2
    exact ⟨rfl, h1.symm⟩
  | none =>
    obtain ⟨e, he⟩ := resolveOne_err w d hr
    rw [he] at h
    exact absurd h (by simp)

/-! ## Resolve-phase lemmas -/

theorem resolveAllPure_specs (rem : List (String × Remote)) (ds : List DependencySpec)
    (rs : List ResolvedDependency) (h : resolveAllPure rem ds = some rs) :
    rs.map (fun r => r.spec) = ds := by
  induction ds generalizing rs with
  | nil =>
    simp only [resolveAllPure] at h
    cases h
    rfl
  | cons d ds ih =>
    simp only [resolveAllPure] at h
    cases hr : resolveOk rem d with
    | none => rw [hr] at h; exact absurd h (by simp)
    | some c =>
      rw [hr] at h
      cases hrs : resolveAllPure rem ds with
      | none => rw [hrs] at h; exact absurd h (by simp)
      | some rs2 =>
        rw [hrs] at h
        cases h
        simp [ih rs2 hrs]

theorem resolvePhase_ok (ds : List DependencySpec) (w : World)
    (rs : List ResolvedDependency) (h : resolveAllPure w.remotes ds = some rs) :
    resolvePhase w ds =
      ({ w with cache := applyWrites w.cache (cacheWritesOf rs) }, rs,
        ds.map (fun d => (d.name, DepState.fetched)), none) := by
  induction ds generalizing w rs with
  | nil =>
    simp only [resolveAllPure] at h
    cases h
    rfl
  | cons d ds ih =>
    simp only [resolveAllPure] at h
    cases hr : resolveOk w.remotes d with
    | none => rw [hr] at h; exact absurd h (by simp)
    | some c =>
      rw [hr] at h
      cases hrs : resolveAllPure w.remotes ds with
      | none => rw [hrs] at h; exact absurd h (by simp)
      | some rs2 =>
        rw [hrs] at h
        cases h
        have hone := resolveOne_ok w d c hr
        have hrs2 :
            resolveAllPure
              ({ w with
                cache := setKey w.cache d.name
                  (CacheState.valid d.repository_url c) } : World).remotes ds = some rs2 := hrs
        simp only [resolvePhase, hone, ih _ _ hrs2]
        rfl

theorem resolvePhase_err (ds : List DependencySpec) (w : World)
    (h : resolveAllPure w.remotes ds = none) :
    ∃ n e, (resolvePhase w ds).2.2.2 = some (RunError.depFailed n e) ∧
      (n, DepState.failed e) ∈ (resolvePhase w ds).2.2.1 := by
  induction ds generalizing w with
  | nil => simp [resolveAllPure] at h
  | cons d ds ih =>
    simp only [resolveAllPure] at h
    cases hr : resolveOk w.remotes d with
    | none =>
      obtain ⟨e, he⟩ := resolveOne_err w d hr
      exact ⟨d.name, e, by simp [resolvePhase, he]⟩
    | some c =>
      rw [hr] at h
      cases hrs : resolveAllPure w.remotes ds with
      | some rs2 => rw [hrs] at h; exact absurd h (by simp)
      | none =>
        have hone := resolveOne_ok w d c hr
        have hrs2 :
            resolveAllPure
              ({ w with
                cache := setKey w.cache d.name
                  (CacheState.valid d.repository_url c) } : World).remotes ds = none := hrs
        obtain ⟨n, e, h1, h2⟩ := ih _ hrs2
        refine ⟨n, e, ?_, ?_⟩
        · simp only [resolvePhase, hone]
          exact h1
        · simp only [resolvePhase, hone]
          exact List.mem_cons_of_mem _ h2

theorem resolvePhase_world (ds : List DependencySpec) (w : World) :
    (resolvePhase w ds).1.tree = w.tree ∧ (resolvePhase w ds).1.remotes = w.remotes := by
  induction ds generalizing w with
  | nil => exact ⟨rfl, rfl⟩
  | cons d ds ih =>
    cases hone : resolveOne w d with
    | error e => simp [resolvePhase, hone]
    | ok p =>
      obtain ⟨w1, r⟩ := p
      obtain ⟨-, hw1⟩ := resolveOne_shape w d w1 r hone
      have := ih w1
      subst hw1
      simpa [resolvePhase, hone] using this

/-! ## Integrate-phase lemmas -/

theorem integrateOne_ok_shape (o : Bool) (w : World) (r : ResolvedDependency) (w1 : World)
    (h : integrateOne o w r = Except.ok w1) :
    w1 = { w with tree := setKey w.tree r.spec.target_path r.commit } := by
  unfold integrateOne at h
  cases ht : getKey w.tree r.spec.target_path with
  | none =>
    rw [ht] at h
    exact (Except.ok.inj h).symm
  | some c =>
    rw [ht] at h
    cases ho : o with
    | true => rw [ho] at h; simp at h; exact h.symm
    | false => rw [ho] at h; exact absurd h (by simp)

theorem integrateOne_true_ok (w : World) (r : ResolvedDependency) :
    integrateOne true w r =
      Except.ok { w with tree := setKey w.tree r.spec.target_path r.commit } := by
  unfold integrateOne
  cases ht : getKey w.tree r.spec.target_path <;> simp

theorem integratePhase_world (o : Bool) (rs : List ResolvedDependency) (w : World) :
    (integratePhase o w rs).1.cache = w.cache ∧
      (integratePhase o w rs).1.remotes = w.remotes := by
  induction rs generalizing w with
  | nil => exact ⟨rfl, rfl⟩
  | cons r rs ih =>
    cases hone : integrateOne o w r with
    | error e => simp [integratePhase, hone]
    | ok w1 =>
      have hw1 := integrateOne_ok_shape o w r w1 hone
      subst hw1
      simpa [integratePhase, hone] using ih _

theorem integratePhase_ok (o : Bool) (rs : List ResolvedDependency) (w : World)
    (h : (integratePhase o w rs).2.2 = none) :
    integratePhase o w rs =
      ({ w with tree := applyWrites w.tree (treeWritesOf rs) },
        rs.map (fun r => (r.spec.name, DepState.integrated)), none) := by
  induction rs generalizing w with
  | nil => rfl
  | cons r rs ih =>
    cases hone : integrateOne o w r with
    | error e => simp [integratePhase, hone] at h
    | ok w1 =>
      have hw1 := integrateOne_ok_shape o w r w1 hone
      subst hw1
      simp only [integratePhase, hone] at h ⊢
      rw [ih _ h]
      rfl

theorem integratePhase_true_ok (rs : List ResolvedDependency) (w : World) :
    (integratePhase true w rs).2.2 = none := by
  induction rs generalizing w with
  | nil => rfl
  | cons r rs ih =>
    rw [show integratePhase true w (r :: rs) =
      (match integrateOne true w r with
      | Except.error e =>
        (w, (r.spec.name, DepState.failed e) ::
          rs.map (fun x => (x.spec.name, DepState.fetched)),
          some (RunError.depFailed r.spec.name e))
      | Except.ok w1 =>
        let res := integratePhase true w1 rs
        (res.1, (r.spec.name, DepState.integrated) :: res.2.1, res.2.2)) from rfl]
    rw [integrateOne_true_ok]
    exact ih _

theorem integratePhase_err (o : Bool) (rs : List ResolvedDependency) (w : World)
    (e0 : RunError) (h : (integratePhase o w rs).2.2 = some e0) :
    ∃ n e, e0 = RunError.depFailed n e ∧
      (n, DepState.failed e) ∈ (integratePhase o w rs).2.1 := by
  induction rs generalizing w with
  | nil => simp [integratePhase] at h
  | cons r rs ih =>
    cases hone : integrateOne o w r with
    | error e =>
      simp only [integratePhase, hone] at h ⊢
      cases h
      exact ⟨r.spec.name, e, rfl, by simp⟩
    | ok w1 =>
      simp only [integratePhase, hone] at h ⊢
      obtain ⟨n, e, h1, h2⟩ := ih _ h
      exact ⟨n, e, h1, List.mem_cons_of_mem _ h2⟩

theorem integratePhase_preserve (rs : List ResolvedDependency) (w : World)
    (p : String) (c : String) (h : getKey w.tree p = some c) :
    getKey (integratePhase false w rs).1.tree p = some c := by
  induction rs generalizing w with
  | nil => exact h
  | cons r rs ih =>
    cases ht : getKey w.tree r.spec.target_path with
    | some c2 =>
      have hone : integrateOne false w r = Except.error DepError.integrationConflictError := by
        unfold integrateOne
        rw [ht]
        rfl
      simpa [integratePhase, hone] using h
    | none =>
      have hone : integrateOne false w r =
          Except.ok { w with tree := setKey w.tree r.spec.target_path r.commit } := by
        unfold integrateOne
        rw [ht]
      have hne : r.spec.target_path ≠ p := by
        intro he
        rw [he, h] at ht
        exact absurd ht (by simp)
      simp only [integratePhase, hone]
      exact ih _ (by rw [getKey_setKey, if_neg hne]; exact h)

theorem integratePhase_tree_congr (o : Bool) (rs : List ResolvedDependency)
    (w v : World) (h : w.tree = v.tree) :
    (integratePhase o w rs).2.2 = (integratePhase o v rs).2.2 ∧
      (integratePhase o w rs).1.tree = (integratePhase o v rs).1.tree ∧
      (integratePhase o w rs).2.1 = (integratePhase o v rs).2.1 := by
  induction rs generalizing w v with
  | nil => exact ⟨rfl, h, rfl⟩
  | cons r rs ih =>
    cases ht : getKey w.tree r.spec.target_path with
    | some c =>
      cases ho : o with
      | false =>
        subst ho
        have hw : integrateOne false w r = Except.error DepError.integrationConflictError := by
          unfold integrateOne
          rw [ht]
          rfl
        have hv : integrateOne false v r = Except.error DepError.integrationConflictError := by
          unfold integrateOne
          rw [← h, ht]
          rfl
        simp [integratePhase, hw, hv, h]
      | true =>
        subst ho
        have hw : integrateOne true w r =
            Except.ok { w with tree := setKey w.tree r.spec.target_path r.commit } :=
          integrateOne_true_ok w r
        have hv : integrateOne true v r =
            Except.ok { v with tree := setKey v.tree r.spec.target_path r.commit } :=
          integrateOne_true_ok v r
        have ihx := ih { w with tree := setKey w.tree r.spec.target_path r.commit }
          { v with tree := setKey v.tree r.spec.target_path r.commit } (by simp [h])
        simp only [integratePhase, hw, hv]
        exact ⟨ihx.1, ihx.2.1, by rw [ihx.2.2]⟩
    | none =>
      have hw : integrateOne o w r =
          Except.ok { w with tree := setKey w.tree r.spec.target_path r.commit } := by
        unfold integrateOne
        rw [ht]
      have hv : integrateOne o v r =
          Except.ok { v with tree := setKey v.tree r.spec.target_path r.commit } := by
        unfold integrateOne
        rw [← h, ht]
      have ihx := ih { w with tree := setKey w.tree r.spec.target_path r.commit }
        { v with tree := setKey v.tree r.spec.target_path r.commit } (by simp [h])
      simp only [integratePhase, hw, hv]
      exact ⟨ihx.1, ihx.2.1, by rw [ihx.2.2]⟩

/-! ## Whole-run lemmas -/

theorem runTool_manifestError (o : Bool) (w : World) (mf : ManifestFile)
    (h : loadManifest mf = Except.error RunError.manifestError) :
    runTool o w mf = ⟨w, [], some RunError.manifestError⟩ := by
  unfold runTool
  rw [h]

theorem runTool_eq (o : Bool) (w : World) (mf : ManifestFile)
    (deps : List DependencySpec) (rs : List ResolvedDependency)
    (hload : loadManifest mf = Except.ok deps)
    (hres : resolveAllPure w.remotes deps = some rs) :
    runTool o w mf =
      ⟨(integratePhase o { w with cache := applyWrites w.cache (cacheWritesOf rs) } rs).1,
        (integratePhase o { w with cache := applyWrites w.cache (cacheWritesOf rs) } rs).2.1,
        (integratePhase o { w with cache := applyWrites w.cache (cacheWritesOf rs) } rs).2.2⟩ := by
  simp only [runTool, hload]
  rw [resolvePhase_ok deps w rs hres]

theorem runTool_resolveFail (o : Bool) (w : World) (mf : ManifestFile)
    (deps : List DependencySpec)
    (hload : loadManifest mf = Except.ok deps)
    (hres : resolveAllPure w.remotes deps = none) :
    ∃ n e, (runTool o w mf).err = some (RunError.depFailed n e) ∧
      (n, DepState.failed e) ∈ (runTool o w mf).states := by
  obtain ⟨n, e, h1, h2⟩ := resolvePhase_err deps w hres
  simp only [runTool, hload]
  rw [h1]
  exact ⟨n, e, rfl, h2⟩

theorem runTool_success_inv (o : Bool) (w : World) (mf : ManifestFile)
    (h : (runTool o w mf).err = none) :
    ∃ deps rs, loadManifest mf = Except.ok deps ∧
      resolveAllPure w.remotes deps = some rs := by
  cases hload : loadManifest mf with
  | error e =>
    have he : e = RunError.manifestError := by
      cases mf with
      | missing => cases hload; rfl
      | malformed => cases hload; rfl
      | parsed entries =>
        simp only [loadManifest] at hload
        by_cases hc : (entries.map (fun e => e.name)).Nodup ∧
            ∀ e ∈ entries, e.repository_url ≠ "" ∧ e.revision ≠ ""
        · rw [if_pos hc] at hload
          exact absurd hload (by simp)
        · rw [if_neg hc] at hload
          exact (Except.error.inj hload).symm
    subst he
    rw [runTool_manifestError o w mf hload] at h
    exact absurd h (by simp)
  | ok deps =>
    cases hres : resolveAllPure w.remotes deps with
    | none =>
      obtain ⟨n, e, h1, -⟩ := runTool_resolveFail o w mf deps hload hres
      rw [h1] at h
      exact absurd h (by simp)
    | some rs => exact ⟨deps, rs, rfl, hres⟩

theorem runTool_remotes (o : Bool) (w : World) (mf : ManifestFile) :
    (runTool o w mf).world.remotes = w.remotes := by
  cases hl : loadManifest mf with
  | error e =>
    simp only [runTool, hl]
  | ok deps =>
    simp only [runTool, hl]
    cases he : (resolvePhase w deps).2.2.2 with
    | some e0 => simpa using (resolvePhase_world deps w).2
    | none =>
      have h1 := (integratePhase_world o (resolvePhase w deps).2.1 (resolvePhase w deps).1).2
      simpa [h1] using (resolvePhase_world deps w).2

theorem interruptResolve_shape (ds : List DependencySpec) (k : Nat) (w : World) :
    (interruptResolve w k ds).remotes = w.remotes ∧
      (interruptResolve w k ds).tree = w.tree ∧
      ∀ n, (∀ d ∈ ds, d.name ≠ n) →
        getKey (interruptResolve w k ds).cache n = getKey w.cache n := by
  induction ds generalizing w k with
  | nil =>
    cases k <;> exact ⟨rfl, rfl, fun n _ => rfl⟩
  | cons d ds ih =>
    cases k with
    | zero =>
      refine ⟨rfl, rfl, fun n hn => ?_⟩
      have hd : d.name ≠ n := hn d (by simp)
      show getKey (setKey w.cache d.name CacheState.incomplete) n = getKey w.cache n
      rw [getKey_setKey, if_neg hd]
    | succ k =>
      cases hone : resolveOne w d with
      | error e => simp [interruptResolve, hone]
      | ok p =>
        obtain ⟨w1, r⟩ := p
        obtain ⟨-, hw1⟩ := resolveOne_shape w d w1 r hone
        have hstep : interruptResolve w (k + 1) (d :: ds) = interruptResolve w1 k ds := by
          simp [interruptResolve, hone]
        have ihx := ih k w1
        have hw1r : w1.remotes = w.remotes := by rw [hw1]
        have hw1t : w1.tree = w.tree := by rw [hw1]
        have hw1c : ∀ n, d.name ≠ n → getKey w1.cache n = getKey w.cache n := by
          intro n hd
          rw [hw1]
          show getKey (setKey w.cache d.name (CacheState.valid d.repository_url r.commit)) n
            = getKey w.cache n
          rw [getKey_setKey, if_neg hd]
        refine ⟨?_, ?_, fun n hn => ?_⟩
        · rw [hstep, ihx.1, hw1r]
        · rw [hstep, ihx.2.1, hw1t]
        · rw [hstep, ihx.2.2 n (fun d2 hd2 => hn d2 (List.mem_cons_of_mem _ hd2)),
            hw1c n (hn d (by simp))]

/-! ## Claim theorems -/

/-- C1: for every manifest file that is missing, malformed, or contains a
duplicate `name`, an empty `repository_url`, or an empty `revision`, the
Manifest Loader fails with `ManifestError`, no `DependencySpec` list is
produced, and the run performs no fetch and no integration: the world is
returned unchanged with no dependency ever leaving the loader. -/
theorem manifestLoader_rejects_bad_manifest (mf : ManifestFile) (h : BadManifest mf) :
    loadManifest mf = Except.error RunError.manifestError ∧
      ∀ o w, runTool o w mf = ⟨w, [], some RunError.manifestError⟩ := by
  have hload : loadManifest mf = Except.error RunError.manifestError := by
    rcases h with h | h | ⟨entries, he, hbad⟩
    · rw [h]; rfl
    · rw [h]; rfl
    · subst he
      simp only [loadManifest]
      rw [if_neg]
      intro ⟨hnd, hall⟩
      rcases hbad with hbad | ⟨e, hmem, hbad⟩
      · exact hbad hnd
      · rcases hbad with hbad | hbad
        · exact (hall e hmem).1 hbad
        · exact (hall e hmem).2 hbad
  exact ⟨hload, fun o w => runTool_manifestError o w mf hload⟩

/-- C1 witness: a manifest with a duplicate name is rejected and the run
aborts with no change to the world. -/
theorem manifestLoader_rejects_bad_manifest_witness :
    loadManifest exManifestDup = Except.error RunError.manifestError ∧
      runTool false exWorld exManifestDup = ⟨exWorld, [], some RunError.manifestError⟩ := by
  have h := manifestLoader_rejects_bad_manifest exManifestDup
    (Or.inr (Or.inr ⟨[exDep1, exDep1], rfl, Or.inl (by decide)⟩))
  exact ⟨h.1, h.2 false exWorld⟩

/-- C2: a resolved dependency whose `target_path` already holds content
makes integration without the overwrite flag fail with
`IntegrationConflictError`, and the pre-existing content at that path
survives any whole run without the overwrite flag unchanged. -/
theorem integrate_conflict_preserves_content (w : World) (r : ResolvedDependency)
    (c : String) (h : getKey w.tree r.spec.target_path = some c) :
    integrateOne false w r = Except.error DepError.integrationConflictError ∧
      ∀ mf, getKey (runTool false w mf).world.tree r.spec.target_path = some c := by
  constructor
  · unfold integrateOne
    rw [h]
    rfl
  · intro mf
    cases hl : loadManifest mf with
    | error e =>
      have he : (runTool false w mf).world = w := by
        cases mf with
        | missing => rfl
        | malformed => rfl
        | parsed entries =>
          simp only [runTool, hl]
      rw [he]
      exact h
    | ok deps =>
      simp only [runTool, hl]
      cases hr : (resolvePhase w deps).2.2.2 with
      | some e0 =>
        simpa [(resolvePhase_world deps w).1] using h
      | none =>
        have hpre : getKey (resolvePhase w deps).1.tree r.spec.target_path = some c := by
          rw [(resolvePhase_world deps w).1]
          exact h
        simpa using integratePhase_preserve (resolvePhase w deps).2.1
          (resolvePhase w deps).1 r.spec.target_path c hpre

/-- C2 witness: with `vendor/libfoo` occupied, integration without
overwrite fails and the stale content survives a run. -/
theorem integrate_conflict_preserves_content_witness :
    integrateOne false exWorldOccupied exResolved1 =
        Except.error DepError.integrationConflictError ∧
      getKey (runTool false exWorldOccupied exManifest).world.tree "vendor/libfoo" =
        some "stale" := by
  have h := integrate_conflict_preserves_content exWorldOccupied exResolved1 "stale" (by decide)
  exact ⟨h.1, h.2 exManifest⟩

/-- C3: the exit code is `0` exactly when the manifest loaded and every
declared dependency reaches the `Integrated` state, and it is non-zero
whenever the manifest fails to parse or any dependency ends `Failed`
(abort-on-first). -/
theorem exitCode_zero_iff_all_integrated (o : Bool) (w : World) (mf : ManifestFile) :
    (exitCode (runTool o w mf) = 0 ↔
      ∃ deps, loadManifest mf = Except.ok deps ∧
        (runTool o w mf).states = deps.map (fun d => (d.name, DepState.integrated))) ∧
      ((loadManifest mf = Except.error RunError.manifestError ∨
          ∃ n e, (n, DepState.failed e) ∈ (runTool o w mf).states) →
        exitCode (runTool o w mf) ≠ 0) := by
  have hfwd : exitCode (runTool o w mf) = 0 →
      ∃ deps, loadManifest mf = Except.ok deps ∧
        (runTool o w mf).states = deps.map (fun d => (d.name, DepState.integrated)) := by
    intro h0
    have herr : (runTool o w mf).err = none := by
      cases he : (runTool o w mf).err with
      | none => rfl
      | some e => rw [exitCode, he] at h0; exact absurd h0 (by simp)
    obtain ⟨deps, rs, hload, hres⟩ := runTool_success_inv o w mf herr
    refine ⟨deps, hload, ?_⟩
    have hrun := runTool_eq o w mf deps rs hload hres
    have hint : (integratePhase o
        { w with cache := applyWrites w.cache (cacheWritesOf rs) } rs).2.2 = none := by
      rw [hrun] at herr
      exact herr
    have hip := integratePhase_ok o rs _ hint
    rw [hrun]
    rw [show ((⟨(integratePhase o { w with cache := applyWrites w.cache (cacheWritesOf rs) } rs).1,
      (integratePhase o { w with cache := applyWrites w.cache (cacheWritesOf rs) } rs).2.1,
      (integratePhase o { w with cache := applyWrites w.cache (cacheWritesOf rs) } rs).2.2⟩ :
        RunOutcome).states)
      = (integratePhase o { w with cache := applyWrites w.cache (cacheWritesOf rs) } rs).2.1
      from rfl]
    rw [hip]
    have hspecs := resolveAllPure_specs w.remotes deps rs hres
    rw [← hspecs, List.map_map]
    rfl
  have hnotint : ∀ (deps : List DependencySpec) (n : String) (e : DepError),
      ¬ ((n, DepState.failed e) ∈
        deps.map (fun d => (d.name, DepState.integrated))) := by
    intro deps n e hmem
    obtain ⟨d, -, hd⟩ := List.mem_map.mp hmem
    exact absurd (congrArg Prod.snd hd) (by simp)
  constructor
  · constructor
    · exact hfwd
    · intro ⟨deps, hload, hstates⟩
      cases hres : resolveAllPure w.remotes deps with
      | none =>
        obtain ⟨n, e, -, hmem⟩ := runTool_resolveFail o w mf deps hload hres
        rw [hstates] at hmem
        exact absurd hmem (hnotint deps n e)
      | some rs =>
        have hrun := runTool_eq o w mf deps rs hload hres
        cases hint : (integratePhase o
            { w with cache := applyWrites w.cache (cacheWritesOf rs) } rs).2.2 with
        | none => rw [exitCode, hrun, hint]
        | some e0 =>
          obtain ⟨n, e, -, hmem⟩ := integratePhase_err o rs _ e0 hint
          have : (n, DepState.failed e) ∈ (runTool o w mf).states := by
            rw [hrun]
            exact hmem
          rw [hstates] at this
          exact absurd this (hnotint deps n e)
  · intro hbad h0
    obtain ⟨deps, hload, hstates⟩ := hfwd h0
    rcases hbad with hbad | ⟨n, e, hmem⟩
    · rw [hload] at hbad
      exact absurd hbad (by simp)
    · rw [hstates] at hmem
      exact absurd hmem (hnotint deps n e)

/-- C3 witness: a fully successful run exits `0`; a run on a manifest
with a duplicate name exits non-zero. -/
theorem exitCode_zero_iff_all_integrated_witness :
    exitCode (runTool false exWorld exManifest) = 0 ∧
      exitCode (runTool false exWorld exManifestDup) ≠ 0 := by
  constructor
  · exact (exitCode_zero_iff_all_integrated false exWorld exManifest).1.mpr
      ⟨[exDep1, exDep2], by rfl, by decide⟩
  · exact (exitCode_zero_iff_all_integrated false exWorld exManifestDup).2
      (Or.inl (by rfl))

theorem cacheWritesOf_keys (rs : List ResolvedDependency) (deps : List DependencySpec)
    (hspecs : rs.map (fun r => r.spec) = deps) (n : String)
    (hnone : lastWrite (cacheWritesOf rs) n = none) : ∀ d ∈ deps, d.name ≠ n := by
  intro d hd
  rw [← hspecs] at hd
  obtain ⟨r, hr, hrd⟩ := List.mem_map.mp hd
  have hmem : (r.spec.name, CacheState.valid r.spec.repository_url r.commit) ∈
      cacheWritesOf rs :=
    List.mem_map_of_mem _ hr
  have hne := lastWrite_none_keys _ n hnone _ hmem
  rw [hrd] at hne
  exact hne

/-- C4: after a successful run from an empty working tree, re-running
with the overwrite flag succeeds and leaves the working tree in exactly
the state the first (fresh) integration produced. -/
theorem rerun_with_overwrite_idempotent (o : Bool) (w : World) (mf : ManifestFile)
    (hempty : w.tree = []) (h1 : (runTool o w mf).err = none) :
    (runTool true (runTool o w mf).world mf).err = none ∧
      ∀ p, getKey (runTool true (runTool o w mf).world mf).world.tree p
          = getKey (runTool o w mf).world.tree p := by
  obtain ⟨deps, rs, hload, hres⟩ := runTool_success_inv o w mf h1
  have hrun1 := runTool_eq o w mf deps rs hload hres
  have hint1 : (integratePhase o
      { w with cache := applyWrites w.cache (cacheWritesOf rs) } rs).2.2 = none := by
    rw [hrun1] at h1
    exact h1
  have hip1 := integratePhase_ok o rs _ hint1
  have htree1 : (runTool o w mf).world.tree = applyWrites w.tree (treeWritesOf rs) := by
    rw [hrun1]
    show (integratePhase o
      { w with cache := applyWrites w.cache (cacheWritesOf rs) } rs).1.tree = _
    rw [hip1]
  have hres2 : resolveAllPure (runTool o w mf).world.remotes deps = some rs := by
    rw [runTool_remotes o w mf]
    exact hres
  have hrun2 := runTool_eq true (runTool o w mf).world mf deps rs hload hres2
  have hip2 := integratePhase_ok true rs
    { (runTool o w mf).world with
      cache := applyWrites (runTool o w mf).world.cache (cacheWritesOf rs) }
    (integratePhase_true_ok rs _)
  constructor
  · rw [hrun2]
    show (integratePhase true
      { (runTool o w mf).world with
        cache := applyWrites (runTool o w mf).world.cache (cacheWritesOf rs) } rs).2.2 = none
    exact integratePhase_true_ok rs _
  · intro p
    rw [hrun2]
    show getKey (integratePhase true
      { (runTool o w mf).world with
        cache := applyWrites (runTool o w mf).world.cache (cacheWritesOf rs) } rs).1.tree p
      = getKey (runTool o w mf).world.tree p
    rw [hip2]
    show getKey (applyWrites (runTool o w mf).world.tree (treeWritesOf rs)) p
      = getKey (runTool o w mf).world.tree p
    rw [htree1]
    exact getKey_applyWrites_idem (treeWritesOf rs) w.tree p

/-- C4 witness: a rerun with overwrite after a fresh successful run
succeeds, with the tree unchanged from the first run. -/
theorem rerun_with_overwrite_idempotent_witness :
    (runTool true (runTool false exWorld exManifest).world exManifest).err = none ∧
      getKey (runTool true (runTool false exWorld exManifest).world exManifest).world.tree
        "vendor/libfoo" =
      getKey (runTool false exWorld exManifest).world.tree "vendor/libfoo" := by
  have h := rerun_with_overwrite_idempotent false exWorld exManifest rfl (by rfl)
  exact ⟨h.1, h.2 "vendor/libfoo"⟩

/-- C5: a corrupted cache directory is re-cloned rather than failed — on
a successful re-clone the orchestrator returns the freshly cloned result
and no error is surfaced; `CacheCorruptionError` is surfaced exactly when
the cache is corrupted and the automatic re-clone also fails; with a
non-corrupted cache, an unreachable remote or nonexistent revision fails
with `GitOperationError`. -/
theorem corrupted_cache_recloned (w : World) (d : DependencySpec) :
    (getKey w.cache d.name = some CacheState.corrupted →
      (∀ c, resolveOk w.remotes d = some c →
        resolveOne w d = Except.ok
          ({ w with cache := setKey w.cache d.name (CacheState.valid d.repository_url c) },
            ⟨d, cacheDir d.name, c⟩)) ∧
      (resolveOk w.remotes d = none →
        resolveOne w d = Except.error DepError.cacheCorruptionError)) ∧
    (resolveOne w d = Except.error DepError.cacheCorruptionError →
      getKey w.cache d.name = some CacheState.corrupted ∧
        resolveOk w.remotes d = none) ∧
    (getKey w.cache d.name ≠ some CacheState.corrupted →
      resolveOk w.remotes d = none →
        resolveOne w d = Except.error DepError.gitOperationError) := by
  refine ⟨fun hc => ⟨fun c hr => resolveOne_ok w d c hr,
    fun hr => resolveOne_corrupted_err w d hc hr⟩,
    fun h => (resolveOne_corruption_iff w d).mp h,
    fun hc hr => resolveOne_err_notCorrupted w d hc hr⟩

/-- C5 witness: a corrupted cache with a reachable remote resolves
successfully by re-cloning; a corrupted cache with an unreachable remote
surfaces `CacheCorruptionError`. -/
theorem corrupted_cache_recloned_witness :
    resolveOne exWorldCorrupt exDep1 = Except.ok
      ({ exWorldCorrupt with
        cache := setKey exWorldCorrupt.cache "libfoo" (CacheState.valid exUrl "contentA") },
        ⟨exDep1, cacheDir "libfoo", "contentA"⟩) ∧
      resolveOne exWorldCorruptBad exDep1 = Except.error DepError.cacheCorruptionError := by
  constructor
  · exact ((corrupted_cache_recloned exWorldCorrupt exDep1).1 (by rfl)).1 "contentA" (by rfl)
  · exact ((corrupted_cache_recloned exWorldCorruptBad exDep1).1 (by rfl)).2 (by rfl)

/-- C6: a run whose fetch phase is interrupted at any point, followed by
a fresh run, ends with the same working tree and the same cache contents
as the uninterrupted run; and a cache left incomplete by an interrupted
clone/fetch is handled exactly like an absent cache — re-attempted from
scratch, never treated as valid. -/
theorem interrupted_fetch_recovery (o : Bool) (w : World) (mf : ManifestFile)
    (deps : List DependencySpec) (k : Nat)
    (hload : loadManifest mf = Except.ok deps)
    (hs : (runTool o w mf).err = none) :
    ((runTool o (interruptResolve w k deps) mf).err = none ∧
      (∀ p, getKey (runTool o (interruptResolve w k deps) mf).world.tree p
          = getKey (runTool o w mf).world.tree p) ∧
      (∀ n, getKey (runTool o (interruptResolve w k deps) mf).world.cache n
          = getKey (runTool o w mf).world.cache n)) ∧
    (∀ (v : World) (d2 : DependencySpec),
      getKey v.cache d2.name = some CacheState.incomplete →
        resolveOne v d2 =
          resolveOne { v with cache := setKey v.cache d2.name CacheState.absent } d2) := by
  have hpart2 : ∀ (v : World) (d2 : DependencySpec),
      getKey v.cache d2.name = some CacheState.incomplete →
        resolveOne v d2 =
          resolveOne { v with cache := setKey v.cache d2.name CacheState.absent } d2 := by
    intro v d2 hc
    have hc2 : getKey ({ v with
        cache := setKey v.cache d2.name CacheState.absent } : World).cache d2.name
        = some CacheState.absent := by
      show getKey (setKey v.cache d2.name CacheState.absent) d2.name = _
      rw [getKey_setKey, if_pos rfl]
    cases hr : resolveOk v.remotes d2 with
    | some c =>
      have hr2 : resolveOk ({ v with
          cache := setKey v.cache d2.name CacheState.absent } : World).remotes d2
          = some c := hr
      rw [resolveOne_ok v d2 c hr, resolveOne_ok _ d2 c hr2]
      simp [setKey_setKey]
    | none =>
      have hr2 : resolveOk ({ v with
          cache := setKey v.cache d2.name CacheState.absent } : World).remotes d2
          = none := hr
      rw [resolveOne_err_notCorrupted v d2 (by rw [hc]; simp) hr,
        resolveOne_err_notCorrupted _ d2 (by rw [hc2]; simp) hr2]
  refine ⟨?_, hpart2⟩
  obtain ⟨deps0, rs, hload0, hres⟩ := runTool_success_inv o w mf hs
  rw [hload] at hload0
  have hdeps : deps = deps0 := Except.ok.inj hload0
  subst hdeps
  have hIshape := interruptResolve_shape deps k w
  have hresI : resolveAllPure (interruptResolve w k deps).remotes deps = some rs := by
    rw [hIshape.1]
    exact hres
  have hrun1 := runTool_eq o w mf deps rs hload hres
  have hrun2 := runTool_eq o (interruptResolve w k deps) mf deps rs hload hresI
  have htreeeq : ({ interruptResolve w k deps with
      cache := applyWrites (interruptResolve w k deps).cache (cacheWritesOf rs) } : World).tree
      = ({ w with cache := applyWrites w.cache (cacheWritesOf rs) } : World).tree := by
    show (interruptResolve w k deps).tree = w.tree
    exact hIshape.2.1
  have hcongr := integratePhase_tree_congr o rs
    { interruptResolve w k deps with
      cache := applyWrites (interruptResolve w k deps).cache (cacheWritesOf rs) }
    { w with cache := applyWrites w.cache (cacheWritesOf rs) } htreeeq
  have hint1 : (integratePhase o
      { w with cache := applyWrites w.cache (cacheWritesOf rs) } rs).2.2 = none := by
    rw [hrun1] at hs
    exact hs
  refine ⟨?_, ?_, ?_⟩
  · rw [hrun2]
    show (integratePhase o
      { interruptResolve w k deps with
        cache := applyWrites (interruptResolve w k deps).cache (cacheWritesOf rs) } rs).2.2
      = none
    rw [hcongr.1]
    exact hint1
  · intro p
    rw [hrun2, hrun1]
    show getKey (integratePhase o
      { interruptResolve w k deps with
        cache := applyWrites (interruptResolve w k deps).cache (cacheWritesOf rs) } rs).1.tree p
      = getKey (integratePhase o
        { w with cache := applyWrites w.cache (cacheWritesOf rs) } rs).1.tree p
    rw [hcongr.2.1]
  · intro n
    rw [hrun2, hrun1]
    have hc2 := (integratePhase_world o rs
      { interruptResolve w k deps with
        cache := applyWrites (interruptResolve w k deps).cache (cacheWritesOf rs) }).1
    have hc1 := (integratePhase_world o rs
      { w with cache := applyWrites w.cache (cacheWritesOf rs) }).1
    show getKey (integratePhase o
      { interruptResolve w k deps with
        cache := applyWrites (interruptResolve w k deps).cache (cacheWritesOf rs) } rs).1.cache n
      = getKey (integratePhase o
        { w with cache := applyWrites w.cache (cacheWritesOf rs) } rs).1.cache n
    rw [hc2, hc1]
    show getKey (applyWrites (interruptResolve w k deps).cache (cacheWritesOf rs)) n
      = getKey (applyWrites w.cache (cacheWritesOf rs)) n
    rw [getKey_applyWrites, getKey_applyWrites]
    cases hlw : lastWrite (cacheWritesOf rs) n with
    | some v => rfl
    | none =>
      have hkeys := cacheWritesOf_keys rs deps
        (resolveAllPure_specs w.remotes deps rs hres) n hlw
      exact hIshape.2.2 n hkeys

/-- C6 witness: interrupting the example run after its first dependency
and re-running converges to the uninterrupted result, and an incomplete
cache entry is re-attempted like an absent one. -/
theorem interrupted_fetch_recovery_witness :
    (runTool false (interruptResolve exWorld 1 [exDep1, exDep2]) exManifest).err = none ∧
      getKey (runTool false (interruptResolve exWorld 1 [exDep1, exDep2])
          exManifest).world.cache "libbar"
        = getKey (runTool false exWorld exManifest).world.cache "libbar" := by
  have h := interrupted_fetch_recovery false exWorld exManifest [exDep1, exDep2] 1
    (by rfl) (by rfl)
  exact ⟨h.1.1, h.1.2.2 "libbar"⟩

/-! ## Lemmas about the version-regex search of `setup.py` -/

theorem matchVersionAt_nil : matchVersionAt [] = none := by decide

theorem MatchPosI_len (b : Bool) (s suf : List Char) (h : MatchPosI b s suf) :
    suf.length ≤ s.length := by
  induction h with
  | here s => exact Nat.le_refl _
  | there b c cs suf h ih => exact Nat.le_succ_of_le ih

theorem searchFrom_none (s : List Char) : ∀ b, searchFrom b s = none ↔
    ∀ suf, MatchPosI b s suf → matchVersionAt suf = none := by
  induction s with
  | nil =>
    intro b
    constructor
    · intro _ suf h
      cases h with
      | here _ => exact matchVersionAt_nil
    · intro _
      rfl
  | cons c cs ih =>
    intro b
    cases b with
    | false =>
      rw [show searchFrom false (c :: cs) = searchFrom (c == newlineChar) cs from rfl,
        ih (c == newlineChar)]
      constructor
      · intro H suf h
        cases h with
        | there _ _ _ _ h2 => exact H suf h2
      · intro H suf h2
        exact H suf (MatchPosI.there _ c cs suf h2)
    | true =>
      cases hm : matchVersionAt (c :: cs) with
      | some g =>
        have hsf : searchFrom true (c :: cs) = some g := by
          simp [searchFrom, hm]
        rw [hsf]
        constructor
        · intro h
          exact absurd h (by simp)
        · intro H
          exact absurd (H (c :: cs) (MatchPosI.here _)) (by simp [hm])
      | none =>
        have hsf : searchFrom true (c :: cs) = searchFrom (c == newlineChar) cs := by
          simp [searchFrom, hm]
        rw [hsf, ih (c == newlineChar)]
        constructor
        · intro H suf h
          cases h with
          | here _ => exact hm
          | there _ _ _ _ h2 => exact H suf h2
        · intro H suf h2
          exact H suf (MatchPosI.there _ c cs suf h2)

theorem searchFrom_some (s : List Char) : ∀ b g, searchFrom b s = some g →
    ∃ suf, MatchPosI b s suf ∧ matchVersionAt suf = some g ∧
      ∀ suf2, MatchPosI b s suf2 → suf.length < suf2.length →
        matchVersionAt suf2 = none := by
  induction s with
  | nil =>
    intro b g h
    exact absurd h (by simp [searchFrom])
  | cons c cs ih =>
    intro b g h
    cases b with
    | false =>
      rw [show searchFrom false (c :: cs) = searchFrom (c == newlineChar) cs from rfl] at h
      obtain ⟨suf, hm, hmv, hmin⟩ := ih (c == newlineChar) g h
      refine ⟨suf, MatchPosI.there _ c cs suf hm, hmv, ?_⟩
      intro suf2 h2 hlen
      cases h2 with
      | there _ _ _ _ h3 => exact hmin suf2 h3 hlen
    | true =>
      cases hm : matchVersionAt (c :: cs) with
      | some g0 =>
        have hsf : searchFrom true (c :: cs) = some g0 := by
          simp [searchFrom, hm]
        rw [hsf] at h
        have hg : g0 = g := Option.some.inj h
        subst hg
        refine ⟨c :: cs, MatchPosI.here _, hm, ?_⟩
        intro suf2 h2 hlen
        exact absurd hlen (Nat.not_lt.mpr (MatchPosI_len true (c :: cs) suf2 h2))
      | none =>
        have hsf : searchFrom true (c :: cs) = searchFrom (c == newlineChar) cs := by
          simp [searchFrom, hm]
        rw [hsf] at h
        obtain ⟨suf, hm2, hmv, hmin⟩ := ih (c == newlineChar) g h
        refine ⟨suf, MatchPosI.there _ c cs suf hm2, hmv, ?_⟩
        intro suf2 h2 hlen
        cases h2 with
        | here _ => exact hm
        | there _ _ _ _ h3 => exact hmin suf2 h3 hlen

theorem MatchPosI_decomp (b : Bool) (s suf : List Char) (h : MatchPosI b s suf) :
    (suf = s ∧ b = true) ∨ ∃ pre2, s = pre2 ++ newlineChar :: suf := by
  induction h with
  | here s => exact Or.inl ⟨rfl, rfl⟩
  | there b c cs suf h ih =>
    right
    rcases ih with ⟨hsuf, hcb⟩ | ⟨pre2, hcs⟩
    · subst hsuf
      have hc : c = newlineChar := beq_iff_eq.mp hcb
      exact ⟨[], by rw [hc]; rfl⟩
    · exact ⟨c :: pre2, by rw [hcs]; rfl⟩

theorem MatchPosI_after_newline (suf : List Char) :
    ∀ (pre : List Char) (b : Bool), MatchPosI b (pre ++ newlineChar :: suf) suf := by
  intro pre
  induction pre with
  | nil =>
    intro b
    refine MatchPosI.there b newlineChar suf suf ?_
    have hb : (newlineChar == newlineChar) = true := by simp
    rw [hb]
    exact MatchPosI.here suf
  | cons c pre ih =>
    intro b
    exact MatchPosI.there b c (pre ++ newlineChar :: suf) suf (ih (c == newlineChar))

theorem MatchPosI_true_iff (s suf : List Char) :
    MatchPosI true s suf ↔ IsLineStartSuffix s suf := by
  constructor
  · intro h
    rcases MatchPosI_decomp true s suf h with ⟨hsuf, -⟩ | ⟨pre2, hs⟩
    · exact ⟨[], by rw [hsuf]; rfl, Or.inl rfl⟩
    · refine ⟨pre2 ++ [newlineChar], ?_, Or.inr ⟨pre2, rfl⟩⟩
      rw [hs]
      simp
  · intro ⟨pre, hs, hor⟩
    rcases hor with hpre | ⟨pre2, hpre⟩
    · subst hpre
      rw [hs]
      exact MatchPosI.here suf
    · subst hpre
      rw [hs, show (pre2 ++ [newlineChar]) ++ suf = pre2 ++ newlineChar :: suf by simp]
      exact MatchPosI_after_newline suf pre2 true

theorem matchVersionAt_quote_free (s g : List Char) (h : matchVersionAt s = some g) :
    ∀ ch ∈ g, isQuote ch = false := by
  intro ch hch
  unfold matchVersionAt at h
  cases hd : dropPrefixChars versionMarker s with
  | none =>
    simp only [hd] at h
    exact absurd h (by simp)
  | some rest =>
    simp only [hd] at h
    cases rest with
    | nil => simp at h
    | cons q rest2 =>
      have h2 : (if isQuote q = true then
          (match rest2.dropWhile (fun c => !(isQuote c)) with
            | [] => none
            | _ :: _ => some (rest2.takeWhile (fun c => !(isQuote c))))
          else none) = some g := h
      by_cases hq : isQuote q = true
      · rw [if_pos hq] at h2
        cases hw : rest2.dropWhile (fun c => !(isQuote c)) with
        | nil =>
          simp only [hw] at h2
          exact absurd h2 (by simp)
        | cons a as =>
          simp only [hw] at h2
          have hg : rest2.takeWhile (fun c => !(isQuote c)) = g := Option.some.inj h2
          rw [← hg] at hch
          have := List.mem_takeWhile_imp hch
          simpa using this
      · rw [if_neg hq] at h2
        simp at h2

/-! ## Claim theorems about `setup.py` -/

/-- C7: the setup call declares exactly one installable entry-point
script, named `git-dependencies`; no other implementation artifact is
produced by running the setup script. -/
theorem setup_declares_single_script (fs : FS) (args : SetupArgs)
    (h : runSetupScript fs = Except.ok args) :
    args.scripts = [scriptName] ∧ args.scripts.length = 1 ∧ args.name = scriptName := by
  unfold runSetupScript at h
  cases hr : read fs scriptName with
  | none => simp only [hr] at h; simp at h
  | some content =>
    simp only [hr] at h
    cases hv : find_version content.toList with
    | error e => simp only [hv] at h; simp at h
    | ok v =>
      simp only [hv] at h
      have harg := Except.ok.inj h
      subst harg
      exact ⟨rfl, rfl, rfl⟩

/-- C7 witness: the example file system yields `setup` arguments whose
only script is `git-dependencies`. -/
theorem setup_declares_single_script_witness :
    exArgs.scripts = [scriptName] ∧ exArgs.scripts.length = 1 ∧
      exArgs.name = scriptName :=
  setup_declares_single_script exFS exArgs (by rfl)

/-- C8: `find_version` returns the group captured at the first line-start
position where the version regex matches, and raises
`RuntimeError("Unable to find version string.")` exactly when the pattern
matches at no line-start position of the content. -/
theorem find_version_first_match (content : List Char) :
    (find_version content = Except.error noVersionMsg ↔
      ∀ suf, IsLineStartSuffix content suf → matchVersionAt suf = none) ∧
    (∀ g, find_version content = Except.ok g →
      ∃ suf, IsLineStartSuffix content suf ∧ matchVersionAt suf = some g ∧
        ∀ suf2, IsLineStartSuffix content suf2 → suf.length < suf2.length →
          matchVersionAt suf2 = none) := by
  constructor
  · constructor
    · intro h suf hls
      have hn : searchFrom true content = none := by
        unfold find_version at h
        cases hs : searchFrom true content with
        | none => rfl
        | some g => rw [hs] at h; exact absurd h (by simp)
      exact (searchFrom_none content true).mp hn suf
        ((MatchPosI_true_iff content suf).mpr hls)
    · intro H
      have hn : searchFrom true content = none :=
        (searchFrom_none content true).mpr
          (fun suf hm => H suf ((MatchPosI_true_iff content suf).mp hm))
      unfold find_version
      rw [hn]
  · intro g h
    have hs : searchFrom true content = some g := by
      unfold find_version at h
      cases hs : searchFrom true content with
      | none => rw [hs] at h; exact absurd h (by simp)
      | some g0 =>
        rw [hs] at h
        have h3 : (Except.ok g0 : Except String (List Char)) = Except.ok g := h
        rw [Except.ok.inj h3]
    obtain ⟨suf, hm, hmv, hmin⟩ := searchFrom_some content true g hs
    exact ⟨suf, (MatchPosI_true_iff content suf).mp hm, hmv,
      fun suf2 h2 hlen => hmin suf2 ((MatchPosI_true_iff content suf2).mpr h2) hlen⟩

/-- C8 witness: on the example script the version `0.3` is found at a
line-start match, and it is the first such match. -/
theorem find_version_first_match_witness :
    find_version exScript.toList = Except.ok ("0.3".toList) ∧
      ∃ suf, IsLineStartSuffix exScript.toList suf ∧
        matchVersionAt suf = some ("0.3".toList) ∧
        ∀ suf2, IsLineStartSuffix exScript.toList suf2 →
          suf.length < suf2.length → matchVersionAt suf2 = none := by
  have h1 : find_version exScript.toList = Except.ok ("0.3".toList) := by rfl
  exact ⟨h1, (find_version_first_match exScript.toList).2 _ h1⟩

/-- C9: a successful run of the setup script passes as `version` exactly
the string `find_version` extracts from the content of the
`git-dependencies` file, and its result depends on nothing but that
file's content. -/
theorem setup_version_from_script (fs : FS) (args : SetupArgs)
    (h : runSetupScript fs = Except.ok args) :
    (∃ content, read fs scriptName = some content ∧
      find_version content.toList = Except.ok args.version.toList) ∧
    ∀ fs2, read fs2 scriptName = read fs scriptName →
      runSetupScript fs2 = runSetupScript fs := by
  constructor
  · unfold runSetupScript at h
    cases hr : read fs scriptName with
    | none => simp only [hr] at h; simp at h
    | some content =>
      simp only [hr] at h
      cases hv : find_version content.toList with
      | error e => simp only [hv] at h; simp at h
      | ok v =>
        simp only [hv] at h
        have harg := Except.ok.inj h
        subst harg
        exact ⟨content, rfl, hv⟩
  · intro fs2 heq
    unfold runSetupScript
    rw [heq]

/-- C9 witness: on the example file system the version is extracted from
the `git-dependencies` file, and an unrelated extra file does not change
the outcome. -/
theorem setup_version_from_script_witness :
    (∃ content, read exFS scriptName = some content ∧
      find_version content.toList = Except.ok exArgs.version.toList) ∧
      runSetupScript ([(scriptName, exScript), ("other", "junk")] : FS) =
        runSetupScript exFS := by
  have h := setup_version_from_script exFS exArgs (by rfl)
  exact ⟨h.1, h.2 [(scriptName, exScript), ("other", "junk")] (by rfl)⟩

/-- C10: every string `find_version` returns is free of single-quote and
double-quote characters, because the capturing group excludes them. -/
theorem find_version_quote_free (content : List Char) (g : List Char)
    (h : find_version content = Except.ok g) :
    ∀ ch ∈ g, ch ≠ singleQuoteChar ∧ ch ≠ doubleQuoteChar := by
  have hs : searchFrom true content = some g := by
    unfold find_version at h
    cases hs : searchFrom true content with
    | none => rw [hs] at h; exact absurd h (by simp)
    | some g0 =>
      rw [hs] at h
      have h3 : (Except.ok g0 : Except String (List Char)) = Except.ok g := h
      rw [Except.ok.inj h3]
  obtain ⟨suf, -, hmv, -⟩ := searchFrom_some content true g hs
  intro ch hch
  have hq := matchVersionAt_quote_free suf g hmv ch hch
  unfold isQuote at hq
  constructor
  · intro he
    rw [he] at hq
    simp at hq
  · intro he
    rw [he] at hq
    simp at hq

/-- C10 witness: the character returned in the example version string is
neither kind of quote. -/
theorem find_version_quote_free_witness :
    Char.ofNat 48 ≠ singleQuoteChar ∧ Char.ofNat 48 ≠ doubleQuoteChar :=
  find_version_quote_free exScript.toList ("0.3".toList) (by rfl)
    (Char.ofNat 48) (by decide)

end GitDeps
